import Mathlib

/-!
Verification development for the Jetson-Live-Translator streaming pipeline.

The Python sources are embedded shallowly:
* Python strings are lists of characters (`List Char`), byte strings are
  lists of naturals (each below 256 in actual use).
* The float32 sample values appearing in the decoder claims are dyadic
  rationals that float32 represents exactly, so samples are modelled as `ℚ`.
* Stateful objects (`SimpleCommitter`, `StreamParser`, `FloatRingBuffer`,
  the coordinator carry) are passed explicitly: each mutating method becomes
  a function from the old state (and arguments) to the result and new state.
-/

/-- Python `s.strip()`: remove whitespace from both ends of a string
(src/s2t/commit.py uses it on every `feed`/`finalize` input). -/
def strip (s : List Char) : List Char :=
  ((s.dropWhile Char.isWhitespace).reverse.dropWhile Char.isWhitespace).reverse

/-- Python slice `l[len(l) - n :]` (equivalently `l[-n:]` for `1 ≤ n`):
the last `n` elements of `l` (all of `l` when `n ≥ |l|`). -/
def lastN (n : Nat) (l : List α) : List α :=
  l.drop (l.length - n)

/-- Binary longest common prefix of two strings. -/
def lcp2 : List Char → List Char → List Char
  | a :: as, b :: bs => if a = b then a :: lcp2 as bs else []
  | _, _ => []

/-- `_lcp_all` from src/s2t/commit.py: the longest common prefix of all the
items (the first mismatch position scanned over the shortest item), empty
for an empty collection.  Folding the binary LCP computes the same value. -/
def lcp_all : List (List Char) → List Char
  | [] => []
  | x :: xs => xs.foldl lcp2 x

/-- Helper for `overlapSP`: try sizes `k, k-1, …, 1` downward and return the
first size whose suffix of `left` equals the prefix of `right`; else 0. -/
def overlapFrom (left right : List Char) : Nat → Nat
  | 0 => 0
  | k + 1 =>
    if lastN (k + 1) left = right.take (k + 1) then k + 1
    else overlapFrom left right k

/-- `_overlap_suffix_prefix` from src/s2t/commit.py: the largest
`k ≤ min |left| |right|` with `left[-k:] == right[:k]`, or 0 if none. -/
def overlapSP (left right : List Char) : Nat :=
  overlapFrom left right (min left.length right.length)

/-- `CommitConfig` from src/s2t/commit.py (defaults 3, 1, 4). -/
structure CommitConfig where
  history_len : Nat
  min_commit_chars : Nat
  min_overlap_chars : Nat
deriving DecidableEq

/-- The default `CommitConfig()`. -/
def defaultCommitConfig : CommitConfig := ⟨3, 1, 4⟩

/-- State of `SimpleCommitter`: the bounded history deque (oldest first)
and the committed prefix. -/
structure SimpleCommitter where
  config : CommitConfig
  history : List (List Char)
  committed : List Char
deriving DecidableEq

/-- A freshly constructed (or `reset`) `SimpleCommitter`. -/
def committerInit (cfg : CommitConfig) : SimpleCommitter := ⟨cfg, [], []⟩

/-- `deque(maxlen := H).append`: append on the right, keeping the last `H`. -/
def pushBounded (H : Nat) (l : List α) (x : α) : List α :=
  lastN H (l ++ [x])

/-- The drift-check block of `SimpleCommitter.feed` (src/s2t/commit.py
lines 60-64): when the committed prefix is non-empty and the new text does
not start with it, optionally truncate the committed prefix to its last
`overlap` characters (when the overlap reaches `min_overlap_chars`), and in
either case clear the history. -/
def driftAdjust (s : SimpleCommitter) (text : List Char) : SimpleCommitter :=
  if s.committed ≠ [] ∧ s.committed.isPrefixOf text = false then
    ⟨s.config, [],
      if s.config.min_overlap_chars ≤ overlapSP s.committed text then
        (if overlapSP s.committed text = 0 then []
         else lastN (overlapSP s.committed text) s.committed)
      else s.committed⟩
  else s

/-- The commit block of `SimpleCommitter.feed` (src/s2t/commit.py lines
65-75): push the text into the history, take the stable prefix, and commit
its extension beyond the committed prefix when long enough. -/
def commitStep (s : SimpleCommitter) (text : List Char) :
    List Char × SimpleCommitter :=
  let hist := pushBounded s.config.history_len s.history text
  let stable := lcp_all hist
  if stable.length ≤ s.committed.length then ([], ⟨s.config, hist, s.committed⟩)
  else if stable.length - s.committed.length < s.config.min_commit_chars then
    ([], ⟨s.config, hist, s.committed⟩)
  else (stable.drop s.committed.length, ⟨s.config, hist, stable⟩)

/-- `SimpleCommitter.feed` (src/s2t/commit.py lines 56-75): returns the
committed delta and the new state. -/
def feed (s : SimpleCommitter) (text0 : List Char) :
    List Char × SimpleCommitter :=
  let text := strip text0
  if text = [] then ([], s)
  else commitStep (driftAdjust s text) text

/-- `SimpleCommitter.finalize` (src/s2t/commit.py lines 77-95): returns the
final delta and the new state.  The trailing `return ""` of the source is
unreachable and therefore not represented. -/
def finalize (s : SimpleCommitter) (text0 : List Char) :
    List Char × SimpleCommitter :=
  let text := strip text0
  if text = [] then ([], s)
  else if s.committed.isPrefixOf text then
    (text.drop s.committed.length, ⟨s.config, s.history, text⟩)
  else if s.committed ≠ [] ∧ overlapSP s.committed text ≠ 0 then
    (text.drop (overlapSP s.committed text), ⟨s.config, [], text⟩)
  else (text, ⟨s.config, [], text⟩)

theorem lcp2_pref_l : ∀ a b : List Char, lcp2 a b <+: a
  | [], _ => by simp [lcp2]
  | _ :: _, [] => by simp [lcp2]
  | a :: as, b :: bs => by
    simp only [lcp2]
    split
    · exact List.cons_prefix_cons.mpr ⟨rfl, lcp2_pref_l as bs⟩
    · exact List.nil_prefix

theorem lcp2_pref_r : ∀ a b : List Char, lcp2 a b <+: b
  | [], _ => by simp [lcp2]
  | _ :: _, [] => by simp [lcp2]
  | a :: as, b :: bs => by
    simp only [lcp2]
    split
    · next h => exact List.cons_prefix_cons.mpr ⟨h, lcp2_pref_r as bs⟩
    · exact List.nil_prefix

theorem foldl_lcp2_pref (as : List (List Char)) :
    ∀ acc : List Char,
      (as.foldl lcp2 acc <+: acc) ∧ ∀ x ∈ as, as.foldl lcp2 acc <+: x := by
  induction as with
  | nil => intro acc; simp [List.prefix_refl acc]
  | cons b bs ih =>
    intro acc
    have h1 := ih (lcp2 acc b)
    refine ⟨h1.1.trans (lcp2_pref_l acc b), ?_⟩
    intro x hx
    rcases List.mem_cons.mp hx with rfl | hx
    · exact h1.1.trans (lcp2_pref_r acc x)
    · exact h1.2 x hx

/-- The stable prefix is a prefix of every history entry. -/
theorem lcp_all_pref_mem {x : List Char} {l : List (List Char)} (h : x ∈ l) :
    lcp_all l <+: x := by
  cases l with
  | nil => cases h
  | cons a as =>
    rcases List.mem_cons.mp h with rfl | hx
    · exact (foldl_lcp2_pref as x).1
    · exact (foldl_lcp2_pref as a).2 x hx

theorem pushBounded_zero (l : List α) (x : α) : pushBounded 0 l x = [] := by
  simp [pushBounded, lastN]

theorem mem_pushBounded_self {H : Nat} (hH : 1 ≤ H) (l : List α) (x : α) :
    x ∈ pushBounded H l x := by
  unfold pushBounded lastN
  have hle : (l ++ [x]).length - H ≤ l.length := by
    simp only [List.length_append, List.length_cons, List.length_nil]
    omega
  rw [List.drop_append_eq_append_drop]
  have h0 : (l ++ [x]).length - H - l.length = 0 := by
    simp only [List.length_append, List.length_cons, List.length_nil]
    omega
  rw [h0]
  simp

theorem pref_eq_append_drop {α : Type _} {l₁ l₂ : List α} (h : l₁ <+: l₂) :
    l₂ = l₁ ++ l₂.drop l₁.length := by
  obtain ⟨r, rfl⟩ := h
  rw [List.drop_left]

theorem pref_of_pref_le {α : Type _} {l₁ l₂ l₃ : List α} (h₁ : l₁ <+: l₃)
    (h₂ : l₂ <+: l₃) (h : l₁.length ≤ l₂.length) : l₁ <+: l₂ :=
  List.prefix_of_prefix_length_le h₁ h₂ h

/-- Splitting a prefix of an append at the first component's boundary. -/
theorem pref_append_split {α : Type _} {X A S : List α} (h : X <+: A ++ S)
    (hlen : A.length ≤ X.length) :
    X = A ++ X.drop A.length ∧ X.drop A.length <+: S := by
  have hA : A <+: X := pref_of_pref_le (List.prefix_append A S) h hlen
  refine ⟨pref_eq_append_drop hA, ?_⟩
  obtain ⟨r, hr⟩ := h
  refine ⟨r, ?_⟩
  have h2 := congrArg (List.drop A.length) hr
  rw [List.drop_append_eq_append_drop, List.drop_left,
    Nat.sub_eq_zero_of_le hlen, List.drop_zero] at h2
  exact h2

/-- When the committed prefix is empty or a prefix of the fed text, the
commit block extends the committed prefix by exactly the returned delta. -/
theorem commitStep_extends (s : SimpleCommitter) (t : List Char)
    (hpre : s.committed = [] ∨ s.committed <+: t) :
    (commitStep s t).2.committed = s.committed ++ (commitStep s t).1 := by
  simp only [commitStep]
  split
  · simp
  · split
    · simp
    · next h1 h2 =>
      simp only
      have hlt : s.committed.length <
          (lcp_all (pushBounded s.config.history_len s.history t)).length := by
        omega
      have hc : s.committed <+:
          lcp_all (pushBounded s.config.history_len s.history t) := by
        rcases hpre with hpre | hpre
        · rw [hpre]; exact List.nil_prefix
        · cases hH : s.config.history_len with
          | zero =>
            rw [hH, pushBounded_zero] at hlt
            simp [lcp_all] at hlt
          | succ m =>
            rw [hH] at hlt
            have hmem : t ∈ pushBounded (m + 1) s.history t :=
              mem_pushBounded_self (Nat.succ_le_succ (Nat.zero_le m)) _ _
            exact pref_of_pref_le hpre (lcp_all_pref_mem hmem) (Nat.le_of_lt hlt)
      exact pref_eq_append_drop hc

/-- Claim C1: each invocation of `feed` or `finalize` whose trimmed text is
empty, whose previously committed prefix is empty, or whose trimmed text
starts with the committed prefix (that is, any invocation other than a
drift correction) returns a delta `D` with `C_new = C_prev ++ D`. -/
theorem commit_delta_extends (s : SimpleCommitter) (t : List Char)
    (h : strip t = [] ∨ s.committed = [] ∨
      s.committed.isPrefixOf (strip t) = true) :
    (feed s t).2.committed = s.committed ++ (feed s t).1 ∧
    (finalize s t).2.committed = s.committed ++ (finalize s t).1 := by
  by_cases hs : strip t = []
  · simp [feed, finalize, hs]
  · have h' : s.committed = [] ∨ s.committed.isPrefixOf (strip t) = true := by
      rcases h with h | h | h
      · exact absurd h hs
      · exact Or.inl h
      · exact Or.inr h
    have hpreb : s.committed.isPrefixOf (strip t) = true := by
      rcases h' with h' | h'
      · rw [h']
        exact List.isPrefixOf_iff_prefix.mpr List.nil_prefix
      · exact h'
    have hpre : s.committed <+: strip t := List.isPrefixOf_iff_prefix.mp hpreb
    have hda : driftAdjust s (strip t) = s := by
      unfold driftAdjust
      rw [if_neg]
      intro hcon
      have hfalse := hcon.2
      rw [hpreb] at hfalse
      exact Bool.noConfusion hfalse
    constructor
    · show (feed s t).2.committed = s.committed ++ (feed s t).1
      simp only [feed, if_neg hs, hda]
      exact commitStep_extends s (strip t) (Or.inr hpre)
    · simp only [finalize, if_neg hs, hpreb, if_true]
      exact pref_eq_append_drop hpre

/-- Witness for C1 at a concrete state and input: committed prefix `"a"`,
history `["a"]`, fed text `"ab"`. -/
theorem commit_delta_extends_w :
    ((['a'] : List Char).isPrefixOf (strip ['a', 'b']) = true) ∧
    (feed ⟨defaultCommitConfig, [['a']], ['a']⟩ ['a', 'b']).2.committed =
      ['a'] ++ (feed ⟨defaultCommitConfig, [['a']], ['a']⟩ ['a', 'b']).1 :=
  ⟨by decide,
    (commit_delta_extends ⟨defaultCommitConfig, [['a']], ['a']⟩ ['a', 'b']
      (Or.inr (Or.inr (by decide)))).1⟩

/-- Counterexample to claim C2 as stated: after a reset with
`history_len = 3, min_commit_chars = 1`, the very first `feed("ab")`
already returns `"ab"`, not the empty string (the LCP of a one-element
history is that element, so the whole string commits immediately). -/
theorem first_feed_commits_cex :
    (feed (committerInit ⟨3, 1, 4⟩) ['a', 'b']).1 = ['a', 'b'] ∧
    (['a', 'b'] : List Char) ≠ [] := by decide

/-- Claim C2, amended: for every string whose trimmed form is non-empty,
after a reset with `history_len = 3, min_commit_chars = 1` the FIRST
`feed(s)` already commits the whole trimmed string and returns it, and
every subsequent `feed(s)` returns empty and leaves the committed prefix
unchanged. -/
theorem first_feed_commits (t : List Char) (h : strip t ≠ []) :
    (feed (committerInit ⟨3, 1, 4⟩) t).1 = strip t ∧
    (feed (committerInit ⟨3, 1, 4⟩) t).2.committed = strip t ∧
    ∀ s : SimpleCommitter, s.committed = strip t →
      (feed s t).1 = [] ∧ (feed s t).2.committed = strip t := by
  have hl : 0 < (strip t).length := List.length_pos.mpr h
  have e1 : pushBounded 3 ([] : List (List Char)) (strip t) = [strip t] := by
    simp [pushBounded, lastN]
  have e2 : lcp_all [strip t] = strip t := rfl
  have hda : driftAdjust (committerInit ⟨3, 1, 4⟩) (strip t) =
      committerInit ⟨3, 1, 4⟩ := by
    simp [driftAdjust, committerInit]
  have hcs : commitStep (committerInit ⟨3, 1, 4⟩) (strip t) =
      (strip t, ⟨⟨3, 1, 4⟩, [strip t], strip t⟩) := by
    simp only [commitStep, committerInit, e1, e2]
    split_ifs with h1 h2
    · exfalso
      simp only [List.length_nil, Nat.le_zero, List.length_eq_zero] at h1
      exact h h1
    · exfalso
      simp only [List.length_nil, Nat.sub_zero] at h2
      omega
    · simp
  refine ⟨?_, ?_, ?_⟩
  · simp only [feed, if_neg h, hda, hcs]
  · simp only [feed, if_neg h, hda, hcs]
  · intro s hsc
    have hpb : (s.committed).isPrefixOf (strip t) = true := by
      rw [hsc]
      exact List.isPrefixOf_iff_prefix.mpr (List.prefix_refl _)
    have hda2 : driftAdjust s (strip t) = s := by
      unfold driftAdjust
      rw [if_neg]
      intro hcon
      have hfalse := hcon.2
      rw [hpb] at hfalse
      exact Bool.noConfusion hfalse
    have hstable :
        (lcp_all (pushBounded s.config.history_len s.history (strip t))).length ≤
          (strip t).length := by
      cases hH : s.config.history_len with
      | zero =>
        rw [pushBounded_zero]
        simp [lcp_all]
      | succ m =>
        exact (lcp_all_pref_mem
          (mem_pushBounded_self (Nat.succ_le_succ (Nat.zero_le m))
            s.history (strip t))).length_le
    have hcs2 : commitStep s (strip t) =
        ([], ⟨s.config, pushBounded s.config.history_len s.history (strip t),
          s.committed⟩) := by
      simp only [commitStep]
      rw [if_pos]
      rw [hsc]
      exact hstable
    constructor
    · simp only [feed, if_neg h, hda2, hcs2]
    · simp only [feed, if_neg h, hda2, hcs2, hsc]

/-- Witness for the amended C2 at `t = "ab"`. -/
theorem first_feed_commits_w :
    strip ['a', 'b'] ≠ [] ∧
    (feed (committerInit ⟨3, 1, 4⟩) ['a', 'b']).1 = strip ['a', 'b'] :=
  ⟨by decide, (first_feed_commits ['a', 'b'] (by decide)).1⟩

/-- Counterexample to claim C3 as stated: the suffix/prefix overlap of the
committed prefix `"hello wor"` and the new text `"lo world"` computed by
the code is 6 (the suffix `"lo wor"`), not 5. -/
theorem drift_overlap_six_cex :
    overlapSP "hello wor".toList "lo world".toList = 6 ∧
    overlapSP "hello wor".toList "lo world".toList ≠ 5 := by decide

/-- Claim C3, amended: with committed prefix `"hello wor"`, feeding
`"lo world"` computes overlap 6 (not 5), which is at least
`min_overlap_chars = 4`, so the committed prefix is truncated to
`"lo wor"` (the matching 6-character prefix of the new text) and the
history is cleared before the new text is appended; that same feed then
commits `"lo world"` (returning the delta `"ld"`), and subsequent feeds
extend the committed prefix from there (three further feeds of
`"lo world again"` commit the extension `" again"`). -/
theorem drift_overlap_six :
    overlapSP "hello wor".toList "lo world".toList = 6 ∧
    defaultCommitConfig.min_overlap_chars ≤ 6 ∧
    driftAdjust ⟨defaultCommitConfig, ["hello wor".toList], "hello wor".toList⟩
        "lo world".toList =
      ⟨defaultCommitConfig, [], "lo wor".toList⟩ ∧
    feed ⟨defaultCommitConfig, ["hello wor".toList], "hello wor".toList⟩
        "lo world".toList =
      ("ld".toList,
        ⟨defaultCommitConfig, ["lo world".toList], "lo world".toList⟩) ∧
    (feed (feed (feed
        ⟨defaultCommitConfig, ["lo world".toList], "lo world".toList⟩
        "lo world again".toList).2 "lo world again".toList).2
        "lo world again".toList).1 = " again".toList ∧
    (feed (feed (feed
        ⟨defaultCommitConfig, ["lo world".toList], "lo world".toList⟩
        "lo world again".toList).2 "lo world again".toList).2
        "lo world again".toList).2.committed =
      "lo world".toList ++ " again".toList := by decide

/-- Counterexample to claim C4 as stated: with committed prefix `"ab"` and
history `["ab"]`, `finalize("abc")` takes the starts-with branch but does
NOT clear the history, which is still `["ab"]` (hence non-empty) after the
call. -/
theorem finalize_keeps_history_cex :
    strip ['a', 'b', 'c'] ≠ [] ∧
    (['a', 'b'] : List Char).isPrefixOf ['a', 'b', 'c'] = true ∧
    (finalize ⟨defaultCommitConfig, [['a', 'b']], ['a', 'b']⟩
        ['a', 'b', 'c']).2.history = [['a', 'b']] ∧
    [['a', 'b']] ≠ ([] : List (List Char)) := by decide

/-- Claim C4, amended: for every commit-engine state and every text whose
trimmed form is non-empty and starts with the committed prefix `C`,
`finalize(text)` returns the suffix `text[|C|:]`, sets `C` to the trimmed
text, and leaves the history UNCHANGED (it is not cleared in this branch). -/
theorem finalize_keeps_history (s : SimpleCommitter) (t : List Char)
    (h1 : strip t ≠ []) (h2 : s.committed.isPrefixOf (strip t) = true) :
    (finalize s t).1 = (strip t).drop s.committed.length ∧
    (finalize s t).2 = ⟨s.config, s.history, strip t⟩ := by
  simp [finalize, h1, h2]

/-- Witness for the amended C4 at committed prefix `"ab"`, history
`["ab"]`, finalized text `"abc"`. -/
theorem finalize_keeps_history_w :
    strip ['a', 'b', 'c'] ≠ [] ∧
    (['a', 'b'] : List Char).isPrefixOf (strip ['a', 'b', 'c']) = true ∧
    (finalize ⟨defaultCommitConfig, [['a', 'b']], ['a', 'b']⟩
        ['a', 'b', 'c']).2 =
      ⟨defaultCommitConfig, [['a', 'b']], strip ['a', 'b', 'c']⟩ :=
  ⟨by decide, by decide,
    (finalize_keeps_history ⟨defaultCommitConfig, [['a', 'b']], ['a', 'b']⟩
      ['a', 'b', 'c'] (by decide) (by decide)).2⟩

/-- `Packet` from src/net/protocol.py (`msg_type`, `flags` are single
bytes on the wire; `payload` is a byte string). -/
structure Packet where
  msg_type : Nat
  flags : Nat
  payload : List Nat
deriving DecidableEq

/-- `MAGIC = 0xAA` from src/net/protocol.py. -/
def MAGIC : Nat := 0xAA

/-- `VERSION = 1` from src/net/protocol.py. -/
def VERSION : Nat := 1

/-- `MAX_PAYLOAD = 4096` from src/net/protocol.py. -/
def MAX_PAYLOAD : Nat := 4096

/-- Big-endian 4-byte encoding of the `u32` length field (the `I` of the
header format `"!BBBBI"`); 16777216 = 2^24, 65536 = 2^16. -/
def be32 (n : Nat) : List Nat :=
  [n / 16777216 % 256, n / 65536 % 256, n / 256 % 256, n % 256]

/-- Big-endian decoding of the 4 length bytes, as `struct.unpack` does. -/
def deBE (a b c d : Nat) : Nat := ((a * 256 + b) * 256 + c) * 256 + d

/-- `pack_header` from src/net/protocol.py: `struct.pack("!BBBBI", MAGIC,
VERSION, msg_type, flags, payload_len)`.  `struct.pack` raises (modelled
as `none`) when a `B` field lies outside [0, 255] or the `I` field outside
[0, 2^32); 4294967296 = 2^32. -/
def pack_header (msg_type flags payload_len : Nat) : Option (List Nat) :=
  if msg_type ≤ 255 ∧ flags ≤ 255 ∧ payload_len < 4294967296 then
    some ([MAGIC, VERSION, msg_type, flags] ++ be32 payload_len)
  else none

/-- The byte sequence of a well-formed packet: 8-byte header, then the
payload. -/
def packetBytes (msg_type flags : Nat) (payload : List Nat) : List Nat :=
  [MAGIC, VERSION, msg_type, flags] ++ be32 payload.length ++ payload

/-- `build_packet` from src/net/protocol.py: an explicit `ValueError`
(`none`) when the payload length exceeds 0xFFFFFFFF = 4294967295,
otherwise the packed header followed by the payload. -/
def build_packet (msg_type flags : Nat) (payload : List Nat) :
    Option (List Nat) :=
  if 4294967295 < payload.length then none
  else (pack_header msg_type flags payload.length).map (· ++ payload)

/-- The `while True` loop of `StreamParser.feed` (src/net/protocol.py
lines 41-72) acting on the internal buffer: with fewer than `HDR_SIZE = 8`
bytes, stop; on a bad magic/version, clear the buffer and stop; on an
oversized payload, wait if incomplete, else discard header plus payload
and continue; on an incomplete payload, stop; otherwise extract one packet
and continue.  Returns the packets in order and the remaining buffer. -/
def parseLoop (maxPayload : Nat) : List Nat → List Packet × List Nat
  | m :: v :: t :: f :: a :: b :: c :: d :: rest =>
    if m = MAGIC ∧ v = VERSION then
      if maxPayload < deBE a b c d then
        if rest.length < deBE a b c d then
          ([], m :: v :: t :: f :: a :: b :: c :: d :: rest)
        else parseLoop maxPayload (rest.drop (deBE a b c d))
      else if rest.length < deBE a b c d then
        ([], m :: v :: t :: f :: a :: b :: c :: d :: rest)
      else
        ((⟨t, f, rest.take (deBE a b c d)⟩ : Packet) ::
            (parseLoop maxPayload (rest.drop (deBE a b c d))).1,
          (parseLoop maxPayload (rest.drop (deBE a b c d))).2)
    else ([], [])
  | buf => ([], buf)
termination_by buf => buf.length
decreasing_by
  all_goals simp [List.length_drop]
  all_goals omega

/-- `StreamParser.feed`: extend the buffer with the incoming data and run
the parsing loop; the parser state is its buffer. -/
def parserFeed (maxPayload : Nat) (buf data : List Nat) :
    List Packet × List Nat :=
  parseLoop maxPayload (buf ++ data)

/-- Feeding a list of data chunks one `feed` call at a time, collecting
all returned packets in order. -/
def parserFeedMany (maxPayload : Nat) (buf : List Nat) :
    List (List Nat) → List Packet × List Nat
  | [] => ([], buf)
  | c :: cs =>
    ((parserFeed maxPayload buf c).1 ++
        (parserFeedMany maxPayload (parserFeed maxPayload buf c).2 cs).1,
      (parserFeedMany maxPayload (parserFeed maxPayload buf c).2 cs).2)

/-- The wire bytes of one packet. -/
def Packet.bytes (p : Packet) : List Nat :=
  packetBytes p.msg_type p.flags p.payload

/-- The wire bytes of a concatenation of packets. -/
def streamBytes (ps : List Packet) : List Nat :=
  (ps.map Packet.bytes).flatten

theorem deBE_be32 (n : Nat) (h : n < 4294967296) :
    deBE (n / 16777216 % 256) (n / 65536 % 256) (n / 256 % 256) (n % 256) =
      n := by
  unfold deBE
  omega

theorem packetBytes_length (t f : Nat) (pl : List Nat) :
    (packetBytes t f pl).length = 8 + pl.length := by
  simp [packetBytes, be32]
  omega

/-- A buffer shorter than the 8-byte header parses to nothing and is kept. -/
theorem parseLoop_short (mp : Nat) (l : List Nat) (h : l.length < 8) :
    parseLoop mp l = ([], l) := by
  rcases l with _ | ⟨x1, _ | ⟨x2, _ | ⟨x3, _ | ⟨x4, _ | ⟨x5, _ | ⟨x6, _ |
    ⟨x7, t⟩⟩⟩⟩⟩⟩⟩
  · simp [parseLoop]
  · simp [parseLoop]
  · simp [parseLoop]
  · simp [parseLoop]
  · simp [parseLoop]
  · simp [parseLoop]
  · simp [parseLoop]
  · cases t with
    | nil => simp [parseLoop]
    | cons x8 t' =>
      exfalso
      simp at h
      omega

/-- Peeling one complete, not-oversized packet off the front of the
buffer. -/
theorem parseLoop_cons (mp t f : Nat) (pl T : List Nat)
    (hlen : pl.length ≤ mp) (hlen2 : pl.length < 4294967296) :
    parseLoop mp (packetBytes t f pl ++ T) =
      ((⟨t, f, pl⟩ : Packet) :: (parseLoop mp T).1, (parseLoop mp T).2) := by
  have hde : deBE (pl.length / 16777216 % 256) (pl.length / 65536 % 256)
      (pl.length / 256 % 256) (pl.length % 256) = pl.length :=
    deBE_be32 _ hlen2
  simp only [packetBytes, be32, List.cons_append, List.nil_append,
    List.append_assoc]
  rw [parseLoop]
  rw [hde]
  rw [if_pos ⟨rfl, rfl⟩]
  rw [if_neg (Nat.not_lt.mpr hlen)]
  rw [if_neg (by simp)]
  rw [List.take_left' rfl, List.drop_left' rfl]

/-- A fully buffered oversized packet is discarded without producing any
`Packet`, and parsing continues behind it. -/
theorem parseLoop_oversized (mp t f : Nat) (pl T : List Nat)
    (hlen : mp < pl.length) (hlen2 : pl.length < 4294967296) :
    parseLoop mp (packetBytes t f pl ++ T) = parseLoop mp T := by
  have hde : deBE (pl.length / 16777216 % 256) (pl.length / 65536 % 256)
      (pl.length / 256 % 256) (pl.length % 256) = pl.length :=
    deBE_be32 _ hlen2
  simp only [packetBytes, be32, List.cons_append, List.nil_append,
    List.append_assoc]
  rw [parseLoop]
  rw [hde]
  rw [if_pos ⟨rfl, rfl⟩]
  rw [if_pos hlen]
  rw [if_neg (by simp)]
  rw [List.drop_left' rfl]

/-- A proper prefix of one valid packet's bytes parses to nothing and is
kept (the loop waits for more bytes). -/
theorem parseLoop_partial (mp t f : Nat) (pl : List Nat)
    (hmp : pl.length ≤ mp) (hlen2 : pl.length < 4294967296) (X : List Nat)
    (hX : X <+: packetBytes t f pl)
    (hlt : X.length < (packetBytes t f pl).length) :
    parseLoop mp X = ([], X) := by
  by_cases h8 : X.length < 8
  · exact parseLoop_short mp X h8
  · push_neg at h8
    have hA8 : ([MAGIC, VERSION, t, f] ++ be32 pl.length).length = 8 := by
      simp [be32]
    have hX' : X <+: ([MAGIC, VERSION, t, f] ++ be32 pl.length) ++ pl := by
      simp only [packetBytes] at hX
      exact hX
    have hsp := pref_append_split hX' (by rw [hA8]; exact h8)
    obtain ⟨hXeq, hYpre⟩ := hsp
    generalize hg : X.drop ([MAGIC, VERSION, t, f] ++ be32 pl.length).length = Y
      at hXeq hYpre
    have hYlt : Y.length < pl.length := by
      have hl1 := congrArg List.length hXeq
      rw [List.length_append, hA8] at hl1
      rw [packetBytes_length] at hlt
      omega
    subst hXeq
    have hde : deBE (pl.length / 16777216 % 256) (pl.length / 65536 % 256)
        (pl.length / 256 % 256) (pl.length % 256) = pl.length :=
      deBE_be32 _ hlen2
    simp only [be32, List.cons_append, List.nil_append]
    rw [parseLoop]
    rw [hde]
    rw [if_pos ⟨rfl, rfl⟩]
    rw [if_neg (Nat.not_lt.mpr hmp)]
    rw [if_pos hYlt]

/-- The residual-buffer invariant: the buffer is empty with no packets
left, or a proper prefix of the first remaining packet's bytes. -/
def bufInv (B : List Nat) (rem : List Packet) : Prop :=
  (B = [] ∧ rem = []) ∨
    ∃ p rest, rem = p :: rest ∧ B <+: p.bytes ∧ B.length < p.bytes.length

theorem bufInv_nil (ps : List Packet) : bufInv [] ps := by
  cases ps with
  | nil => exact Or.inl ⟨rfl, rfl⟩
  | cons p rest =>
    refine Or.inr ⟨p, rest, rfl, List.nil_prefix, ?_⟩
    rw [Packet.bytes, packetBytes_length]
    simp

/-- Parsing any prefix of a valid stream yields the fully contained
packets and keeps a residue that is a proper prefix of the next packet. -/
theorem parseLoop_pref :
    ∀ (ps : List Packet) (X : List Nat),
      (∀ p ∈ ps, p.payload.length ≤ MAX_PAYLOAD) →
      X <+: streamBytes ps →
      ∃ k, parseLoop MAX_PAYLOAD X =
          (ps.take k, X.drop (streamBytes (ps.take k)).length) ∧
        X = streamBytes (ps.take k) ++
          X.drop (streamBytes (ps.take k)).length ∧
        bufInv (X.drop (streamBytes (ps.take k)).length) (ps.drop k) := by
  intro ps
  induction ps with
  | nil =>
    intro X hv hX
    rw [streamBytes] at hX
    simp only [List.map_nil, List.flatten_nil, List.prefix_nil] at hX
    subst hX
    refine ⟨0, ?_, ?_, bufInv_nil _⟩
    · simp [parseLoop, streamBytes]
    · simp [streamBytes]
  | cons p ps' ih =>
    intro X hv hX
    have hplen : p.payload.length ≤ MAX_PAYLOAD :=
      hv p (List.mem_cons_self p ps')
    have hplen2 : p.payload.length < 4294967296 := by
      have : MAX_PAYLOAD = 4096 := rfl
      omega
    have hstream : streamBytes (p :: ps') = p.bytes ++ streamBytes ps' := by
      simp [streamBytes]
    rw [hstream] at hX
    by_cases hlt : X.length < p.bytes.length
    · have hXp : X <+: p.bytes :=
        pref_of_pref_le hX (List.prefix_append p.bytes (streamBytes ps'))
          (Nat.le_of_lt hlt)
      refine ⟨0, ?_, ?_, ?_⟩
      · simp only [List.take_zero, streamBytes, List.map_nil,
          List.flatten_nil, List.length_nil, List.drop_zero]
        exact parseLoop_partial MAX_PAYLOAD p.msg_type p.flags p.payload
          hplen hplen2 X hXp hlt
      · simp [streamBytes]
      · simp only [streamBytes, List.map_nil, List.flatten_nil,
          List.length_nil, List.drop_zero, List.drop_zero]
        exact Or.inr ⟨p, ps', rfl, hXp, hlt⟩
    · push_neg at hlt
      obtain ⟨hXeq, hYpre⟩ := pref_append_split hX hlt
      generalize hg : X.drop p.bytes.length = Y at hXeq hYpre
      subst hXeq
      obtain ⟨k, hparse, hYeq, hInv⟩ := ih Y
        (fun q hq => hv q (List.mem_cons_of_mem p hq)) hYpre
      have htk : streamBytes (p :: ps'.take k) =
          p.bytes ++ streamBytes (ps'.take k) := by
        simp [streamBytes]
      refine ⟨k + 1, ?_, ?_, ?_⟩
      · have hcons := parseLoop_cons MAX_PAYLOAD p.msg_type p.flags p.payload
          Y hplen hplen2
        have hpb : packetBytes p.msg_type p.flags p.payload = p.bytes := rfl
        rw [hpb] at hcons
        rw [hcons, hparse]
        rw [List.take_succ_cons, htk, List.length_append, List.drop_append]
      · rw [List.take_succ_cons, htk, List.length_append, List.drop_append,
          List.append_assoc, ← hYeq]
      · rw [List.take_succ_cons, htk, List.length_append, List.drop_append,
          List.drop_succ_cons]
        exact hInv

theorem streamBytes_cons (p : Packet) (ps : List Packet) :
    streamBytes (p :: ps) = p.bytes ++ streamBytes ps := by
  simp [streamBytes]

/-- Feeding chunk by chunk consumes a valid stream completely: all packets
come out in order and the buffer ends empty. -/
theorem parserFeedMany_stream (chunks : List (List Nat)) :
    ∀ (ps : List Packet) (B : List Nat),
      (∀ p ∈ ps, p.payload.length ≤ MAX_PAYLOAD) →
      B ++ chunks.flatten = streamBytes ps →
      bufInv B ps →
      parserFeedMany MAX_PAYLOAD B chunks = (ps, []) := by
  induction chunks with
  | nil =>
    intro ps B hv hB hInv
    rw [List.flatten_nil, List.append_nil] at hB
    rcases hInv with ⟨hB0, hps0⟩ | ⟨p, rest, hrem, hpre, hlen⟩
    · subst hps0
      subst hB0
      simp [parserFeedMany]
    · exfalso
      subst hrem
      have hl := congrArg List.length hB
      rw [streamBytes_cons, List.length_append] at hl
      omega
  | cons c cs ih =>
    intro ps B hv hB hInv
    rw [List.flatten_cons] at hB
    have hX : B ++ c <+: streamBytes ps := by
      refine ⟨cs.flatten, ?_⟩
      rw [List.append_assoc]
      exact hB
    obtain ⟨k, hparse, hXeq, hInv'⟩ := parseLoop_pref ps (B ++ c) hv hX
    have hsplit : streamBytes ps =
        streamBytes (ps.take k) ++ streamBytes (ps.drop k) := by
      rw [streamBytes, streamBytes, streamBytes, ← List.flatten_append,
        ← List.map_append, List.take_append_drop]
    have h1 : streamBytes (ps.take k) ++
        ((B ++ c).drop (streamBytes (ps.take k)).length ++ cs.flatten) =
        streamBytes (ps.take k) ++ streamBytes (ps.drop k) := by
      rw [← List.append_assoc, ← hXeq, List.append_assoc, hB, hsplit]
    have hRjoin := List.append_cancel_left h1
    have hv' : ∀ p ∈ ps.drop k, p.payload.length ≤ MAX_PAYLOAD :=
      fun p hp => hv p (List.mem_of_mem_drop hp)
    have hrec := ih (ps.drop k) _ hv' hRjoin hInv'
    simp only [parserFeedMany, parserFeed]
    rw [hparse]
    simp only
    rw [hrec]
    rw [List.take_append_drop]

/-- Claim C6: feeding any chunking of a concatenation of valid packet
bytes to a fresh parser yields, across all calls in order, the same packet
sequence as feeding the whole concatenation in a single call. -/
theorem stream_parser_chunking (ps : List Packet) (chunks : List (List Nat))
    (hv : ∀ p ∈ ps, p.payload.length ≤ MAX_PAYLOAD)
    (hc : chunks.flatten = streamBytes ps) :
    (parserFeedMany MAX_PAYLOAD [] chunks).1 =
      (parserFeed MAX_PAYLOAD [] chunks.flatten).1 := by
  have h1 := parserFeedMany_stream chunks ps [] hv (by simpa using hc)
    (bufInv_nil ps)
  have h2 := parserFeedMany_stream [chunks.flatten] ps [] hv (by simpa using hc)
    (bufInv_nil ps)
  have h3 : (parserFeedMany MAX_PAYLOAD [] [chunks.flatten]).1 =
      (parserFeed MAX_PAYLOAD [] chunks.flatten).1 := by
    simp [parserFeedMany]
  rw [h1, ← h3, h2]

/-- Witness for C6: the two packets `(2, 4, [72])` and `(1, 0, [])` split
into two chunks across a packet boundary. -/
theorem stream_parser_chunking_w :
    ([[170, 1, 2, 4, 0], [0, 0, 1, 72, 170, 1, 1, 0, 0, 0, 0, 0]] :
        List (List Nat)).flatten =
      streamBytes [⟨2, 4, [72]⟩, ⟨1, 0, []⟩] ∧
    (parserFeedMany MAX_PAYLOAD []
        [[170, 1, 2, 4, 0], [0, 0, 1, 72, 170, 1, 1, 0, 0, 0, 0, 0]]).1 =
      (parserFeed MAX_PAYLOAD []
        ([[170, 1, 2, 4, 0],
          [0, 0, 1, 72, 170, 1, 1, 0, 0, 0, 0, 0]] : List (List Nat)).flatten).1 :=
  ⟨by decide,
    stream_parser_chunking [⟨2, 4, [72]⟩, ⟨1, 0, []⟩]
      [[170, 1, 2, 4, 0], [0, 0, 1, 72, 170, 1, 1, 0, 0, 0, 0, 0]]
      (by decide) (by decide)⟩

/-- Claim C5: for `msg_type ∈ {1,2}`, `flags ∈ [0,255]` and a payload of
at most `MAX_PAYLOAD` bytes, `build_packet` succeeds and feeding its bytes
to a fresh parser yields exactly one packet with identical fields. -/
theorem packet_roundtrip (mt fl : Nat) (pl : List Nat)
    (hmt : mt = 1 ∨ mt = 2) (hfl : fl ≤ 255) (hlen : pl.length ≤ MAX_PAYLOAD) :
    build_packet mt fl pl = some (packetBytes mt fl pl) ∧
    parserFeed MAX_PAYLOAD [] (packetBytes mt fl pl) =
      ([⟨mt, fl, pl⟩], []) := by
  have hmt' : mt ≤ 255 := by rcases hmt with rfl | rfl <;> omega
  have h4096 : MAX_PAYLOAD = 4096 := rfl
  have hlen32 : pl.length < 4294967296 := by omega
  have hc1 : ¬ (4294967295 < pl.length) := by omega
  constructor
  · simp [build_packet, pack_header, hc1, hmt', hfl, hlen32, packetBytes]
  · rw [parserFeed, List.nil_append]
    have hcons := parseLoop_cons MAX_PAYLOAD mt fl pl [] hlen hlen32
    rw [List.append_nil] at hcons
    rw [hcons]
    rw [parseLoop_short MAX_PAYLOAD [] (by simp)]

/-- Witness for C5 at the spec's S1 scenario: `msg_type = 2`,
`flags = 0x04`, payload `"Hello"`. -/
theorem packet_roundtrip_w :
    build_packet 2 4 [72, 101, 108, 108, 111] =
      some (packetBytes 2 4 [72, 101, 108, 108, 111]) ∧
    parserFeed MAX_PAYLOAD [] (packetBytes 2 4 [72, 101, 108, 108, 111]) =
      ([⟨2, 4, [72, 101, 108, 108, 111]⟩], []) :=
  packet_roundtrip 2 4 [72, 101, 108, 108, 111] (Or.inr rfl) (by decide)
    (by decide)

/-- Claim C10: with byte-valued `msg_type` and `flags`, `build_packet`
fails exactly when the payload length exceeds 2^32 − 1; in particular for
any payload longer than `MAX_PAYLOAD` but at most 2^32 − 1 it succeeds,
and a fresh parser silently discards the resulting bytes, producing no
packet. -/
theorem build_packet_overflow (mt fl : Nat) (hmt : mt ≤ 255)
    (hfl : fl ≤ 255) (pl : List Nat) :
    (build_packet mt fl pl = none ↔ 4294967295 < pl.length) ∧
    (MAX_PAYLOAD < pl.length → pl.length ≤ 4294967295 →
      build_packet mt fl pl = some (packetBytes mt fl pl) ∧
      parserFeed MAX_PAYLOAD [] (packetBytes mt fl pl) = ([], [])) := by
  constructor
  · by_cases hbig : 4294967295 < pl.length
    · simp [build_packet, hbig]
    · have hlen32 : pl.length < 4294967296 := by omega
      simp [build_packet, pack_header, hbig, hmt, hfl, hlen32]
  · intro hgt hle
    have hlen32 : pl.length < 4294967296 := by omega
    have hc1 : ¬ (4294967295 < pl.length) := by omega
    constructor
    · simp [build_packet, pack_header, hc1, hmt, hfl, hlen32, packetBytes]
    · rw [parserFeed, List.nil_append]
      have hdisc := parseLoop_oversized MAX_PAYLOAD mt fl pl [] hgt hlen32
      rw [List.append_nil] at hdisc
      rw [hdisc]
      exact parseLoop_short MAX_PAYLOAD [] (by simp)

/-- Witness for C10 at a 4097-byte payload. -/
theorem build_packet_overflow_w :
    build_packet 2 0 (List.replicate 4097 0) =
      some (packetBytes 2 0 (List.replicate 4097 0)) ∧
    parserFeed MAX_PAYLOAD [] (packetBytes 2 0 (List.replicate 4097 0)) =
      ([], []) :=
  (build_packet_overflow 2 0 (by decide) (by decide)
      (List.replicate 4097 0)).2
    (by rw [List.length_replicate]; decide)
    (by rw [List.length_replicate]; omega)

/-- Python slice `l[-n:]` including the `n = 0` quirk: `l[-0:]` is the
whole list. -/
def pySliceLast (n : Nat) (l : List α) : List α :=
  if n = 0 then l else lastN n l

/-- `FloatRingBuffer` from src/audio/ringbuffer.py: the retained samples
(oldest first) and the capacity.  The claims about it concern sample count
and order only, so the sample type is a parameter. -/
structure FloatRingBuffer (α : Type _) where
  maxSamples : Nat
  data : List α

/-- `FloatRingBuffer.__init__(max_samples)`: capacity `max(1, max_samples)`,
initially empty. -/
def ringInit (α : Type _) (maxSamples : Nat) : FloatRingBuffer α :=
  ⟨max 1 maxSamples, []⟩

/-- `FloatRingBuffer.append`: no-op on empty input, else concatenate and,
when over capacity, keep only the last `maxSamples` samples
(`self._data[-self._max_samples:]`). -/
def ringAppend (r : FloatRingBuffer α) (samples : List α) :
    FloatRingBuffer α :=
  if samples.length = 0 then r
  else if r.maxSamples < (r.data ++ samples).length then
    ⟨r.maxSamples, pySliceLast r.maxSamples (r.data ++ samples)⟩
  else ⟨r.maxSamples, r.data ++ samples⟩

/-- `FloatRingBuffer.size`. -/
def ringSize (r : FloatRingBuffer α) : Nat := r.data.length

/-- `FloatRingBuffer.get_last(count)` (the source returns a copy; value
equality is what matters here).  The final branch is the Python slice
`self._data[-count:]`. -/
def ringGetLast (r : FloatRingBuffer α) (count : Nat) : List α :=
  if r.data.length = 0 then []
  else if r.data.length ≤ count then r.data
  else pySliceLast count r.data

/-- A sequence of appends, as the worker performs over time. -/
def ringAppendAll (r : FloatRingBuffer α) (chunks : List (List α)) :
    FloatRingBuffer α :=
  chunks.foldl ringAppend r

theorem lastN_all {α : Type _} {n : Nat} {l : List α} (h : l.length ≤ n) :
    lastN n l = l := by
  unfold lastN
  rw [Nat.sub_eq_zero_of_le h, List.drop_zero]

theorem lastN_length {α : Type _} (n : Nat) (l : List α) :
    (lastN n l).length = min n l.length := by
  unfold lastN
  rw [List.length_drop]
  omega

theorem lastN_append_of_le {α : Type _} (w z : List α) (n : Nat)
    (h : n ≤ z.length) : lastN n (w ++ z) = lastN n z := by
  unfold lastN
  rw [List.length_append]
  have he : w.length + z.length - n = w.length + (z.length - n) := by omega
  rw [he, List.drop_append]

/-- Retaining the last `n` elements commutes with later appends. -/
theorem lastN_lastN_append {α : Type _} (n : Nat) (a s : List α) :
    lastN n (lastN n a ++ s) = lastN n (a ++ s) := by
  by_cases h : a.length ≤ n
  · rw [lastN_all h]
  · push_neg at h
    have hu : (lastN n a).length = n := by
      rw [lastN_length]
      omega
    have ha : a.take (a.length - n) ++ lastN n a = a := by
      unfold lastN
      exact List.take_append_drop _ a
    have h1 : lastN n (a.take (a.length - n) ++ (lastN n a ++ s)) =
        lastN n (lastN n a ++ s) :=
      lastN_append_of_le _ _ n (by rw [List.length_append, hu]; omega)
    rw [← h1, ← List.append_assoc, ha]

/-- One `append` keeps exactly the last `maxSamples` samples of everything
appended so far. -/
theorem ringAppend_data (r : FloatRingBuffer α) (s acc : List α)
    (hmax : 1 ≤ r.maxSamples) (hdata : r.data = lastN r.maxSamples acc) :
    (ringAppend r s).data = lastN r.maxSamples (acc ++ s) ∧
    (ringAppend r s).maxSamples = r.maxSamples := by
  unfold ringAppend
  split_ifs with h0 hover
  · have hs : s = [] := List.length_eq_zero.mp h0
    subst hs
    rw [List.append_nil]
    exact ⟨hdata, rfl⟩
  · refine ⟨?_, rfl⟩
    show pySliceLast r.maxSamples (r.data ++ s) = _
    unfold pySliceLast
    rw [if_neg (by omega)]
    rw [hdata, lastN_lastN_append]
  · refine ⟨?_, rfl⟩
    show r.data ++ s = _
    push_neg at hover
    rw [hdata] at hover ⊢
    rw [← lastN_lastN_append]
    exact (lastN_all hover).symm

theorem ringAppendAll_data (chunks : List (List α)) :
    ∀ (r : FloatRingBuffer α) (acc : List α), 1 ≤ r.maxSamples →
      r.data = lastN r.maxSamples acc →
      (ringAppendAll r chunks).data =
          lastN r.maxSamples (acc ++ chunks.flatten) ∧
      (ringAppendAll r chunks).maxSamples = r.maxSamples := by
  induction chunks with
  | nil =>
    intro r acc h1 h2
    rw [List.flatten_nil, List.append_nil]
    exact ⟨h2, rfl⟩
  | cons c cs ih =>
    intro r acc h1 h2
    have hstep := ringAppend_data r c acc h1 h2
    have hrec := ih (ringAppend r c) (acc ++ c)
      (by rw [hstep.2]; exact h1) (by rw [hstep.2]; exact hstep.1)
    simp only [ringAppendAll, List.foldl_cons] at hrec ⊢
    constructor
    · rw [hrec.1, hstep.2, List.flatten_cons, ← List.append_assoc]
    · rw [hrec.2, hstep.2]

/-- `get_last(size)` returns all retained samples. -/
theorem ringGetLast_size (r : FloatRingBuffer α) :
    ringGetLast r (ringSize r) = r.data := by
  unfold ringGetLast ringSize
  split_ifs with h1 h2
  · exact (List.length_eq_zero.mp h1).symm
  · rfl
  · omega

/-- Claim C7: after any sequence of appends totaling `S` samples into a
ring of capacity `C ≥ 1`, `size = min S C` and the retained samples (as
returned by `get_last`) are exactly the last `min S C` samples of the
concatenation of everything appended, in order. -/
theorem ring_capacity (α : Type _) (C : Nat) (hC : 1 ≤ C)
    (chunks : List (List α)) :
    ringSize (ringAppendAll (ringInit α C) chunks) =
      min chunks.flatten.length C ∧
    ringGetLast (ringAppendAll (ringInit α C) chunks)
        (ringSize (ringAppendAll (ringInit α C) chunks)) =
      lastN (min chunks.flatten.length C) chunks.flatten := by
  have hmaxC : (ringInit α C).maxSamples = C := by
    show max 1 C = C
    omega
  have hmain := ringAppendAll_data chunks (ringInit α C) []
    (by rw [hmaxC]; exact hC) (by show ([] : List α) = lastN _ []; simp [lastN])
  rw [hmaxC] at hmain
  have hdata : (ringAppendAll (ringInit α C) chunks).data =
      lastN C chunks.flatten := by
    rw [hmain.1, List.nil_append]
  have hlast : lastN C chunks.flatten =
      lastN (min chunks.flatten.length C) chunks.flatten := by
    unfold lastN
    have he : chunks.flatten.length - C =
        chunks.flatten.length - min chunks.flatten.length C := by omega
    rw [he]
  constructor
  · rw [ringSize, hdata, lastN_length]
    omega
  · rw [ringGetLast_size, hdata, hlast]

/-- Witness for C7: capacity 3, appends `[1,2], [3,4]` over `Int`. -/
theorem ring_capacity_w :
    ringSize (ringAppendAll (ringInit Int 3) [[1, 2], [3, 4]]) =
      min ([[1, 2], [3, 4]] : List (List Int)).flatten.length 3 ∧
    ringGetLast (ringAppendAll (ringInit Int 3) [[1, 2], [3, 4]])
        (ringSize (ringAppendAll (ringInit Int 3) [[1, 2], [3, 4]])) =
      lastN (min ([[1, 2], [3, 4]] : List (List Int)).flatten.length 3)
        ([[1, 2], [3, 4]] : List (List Int)).flatten :=
  ring_capacity Int 3 (by omega) [[1, 2], [3, 4]]

/-- Grouping the payload into 3-byte packed samples: the trim to a multiple
of 3 and the reshape to `(-1, 3)` in src/audio/format.py. -/
def chunk3 : List Nat → List (Nat × Nat × Nat)
  | b0 :: b1 :: b2 :: rest => (b0, b1, b2) :: chunk3 rest
  | _ => []

/-- Assemble one little-endian 24-bit value
(`data[:,0] | data[:,1] << 8 | data[:,2] << 16`) and sign-extend
(`vals[neg] -= 1 << 24` where bit 23 is set). -/
def sample24 (b0 b1 b2 : Nat) : Int :=
  let v : Nat := b0 ||| (b1 <<< 8) ||| (b2 <<< 16)
  if v &&& 0x800000 ≠ 0 then (v : Int) - ((1 <<< 24 : Nat) : Int)
  else (v : Int)

/-- Frames of exactly `n` samples: the trim to a multiple of `n` samples
and the reshape to `(-1, n)` in src/audio/format.py. -/
def chunkFrames (n : Nat) (l : List Int) : List (List Int) :=
  if _h : 0 < n ∧ n ≤ l.length then l.take n :: chunkFrames n (l.drop n)
  else []
termination_by l.length
decreasing_by
  rw [List.length_drop]
  omega

/-- `decode_packed_24bit_stereo_to_mono` from src/audio/format.py.
float32 arithmetic is modelled over `ℚ`; the conversions and the division
by 2^23 = 8388608 appearing in the claims are exact in float32.  The
source's early return on `data.size == 0` is subsumed: with at least 3
payload bytes there is at least one packed sample. -/
def decode_packed_24bit_stereo_to_mono (payload : List Nat) (channels : Nat)
    (channel_select : String) : List ℚ :=
  if payload.length < 3 then []
  else
    let vals := (chunk3 payload).map (fun b => sample24 b.1 b.2.1 b.2.2)
    let mono : List ℚ :=
      if 1 < channels then
        let frames := chunkFrames channels vals
        if channel_select = "right" then
          frames.map (fun fr => ((fr.getD 1 0 : Int) : ℚ))
        else if channel_select = "mix" then
          frames.map (fun fr => ((fr.sum : Int) : ℚ) / (channels : ℚ))
        else frames.map (fun fr => ((fr.getD 0 0 : Int) : ℚ))
      else vals.map (fun v => ((v : Int) : ℚ))
    mono.map (fun v => v / 8388608)

/-- Claim C8: the decoder maps the packed sample `00 00 00` to 0.0,
`FF FF 7F` to (2^23 − 1)/2^23 and `00 00 80` to −1.0 (stated on the
mono sample-value path, `channels = 1`), and returns the empty sequence
for every input shorter than one 3-byte sample, for every channel
configuration. -/
theorem decoder_bit_accuracy :
    decode_packed_24bit_stereo_to_mono [0x00, 0x00, 0x00] 1 "left" = [0] ∧
    decode_packed_24bit_stereo_to_mono [0xFF, 0xFF, 0x7F] 1 "left" =
      [(8388607 : ℚ) / 8388608] ∧
    decode_packed_24bit_stereo_to_mono [0x00, 0x00, 0x80] 1 "left" = [-1] ∧
    ∀ (payload : List Nat) (channels : Nat) (sel : String),
      payload.length < 3 →
      decode_packed_24bit_stereo_to_mono payload channels sel = [] := by
  refine ⟨?_, ?_, ?_, ?_⟩
  · have s1 : sample24 0 0 0 = 0 := by decide
    norm_num [decode_packed_24bit_stereo_to_mono, chunk3, s1]
  · have s1 : sample24 255 255 127 = 8388607 := by decide
    norm_num [decode_packed_24bit_stereo_to_mono, chunk3, s1]
  · have s1 : sample24 0 0 128 = -8388608 := by decide
    norm_num [decode_packed_24bit_stereo_to_mono, chunk3, s1]
  · intro p c s h
    unfold decode_packed_24bit_stereo_to_mono
    rw [if_pos h]

/-- Witness for the universally quantified part of C8 at a 2-byte input. -/
theorem decoder_bit_accuracy_w :
    ([1, 2] : List Nat).length < 3 ∧
    decode_packed_24bit_stereo_to_mono [1, 2] 2 "mix" = [] :=
  ⟨by decide, decoder_bit_accuracy.2.2.2 [1, 2] 2 "mix" (by decide)⟩

/-- The frame-alignment carry update of `Coordinator._poll_network`
(src/pipeline/coordinator.py lines 206-210): prepend the carry to the
packet payload, trim to a multiple of `frame_bytes = 3 × channels`, pass
the trimmed part on for decoding and save the remainder as the new
carry. -/
def ingestCarryStep (channels : Nat) (carry payload : List Nat) :
    List Nat × List Nat :=
  let p := carry ++ payload
  let frame_bytes := 3 * channels
  let trim_len := p.length - p.length % frame_bytes
  (p.take trim_len, p.drop trim_len)

/-- The carry after a whole sequence of inbound audio packets. -/
def ingestCarryAll (channels : Nat) (carry : List Nat)
    (payloads : List (List Nat)) : List Nat :=
  payloads.foldl (fun c p => (ingestCarryStep channels c p).2) carry

theorem ingestCarryStep_len (channels : Nat) (hc : 1 ≤ channels)
    (carry payload : List Nat) :
    ((ingestCarryStep channels carry payload).2).length < 3 * channels := by
  simp only [ingestCarryStep, List.length_drop]
  have hfb : 0 < 3 * channels := by omega
  have hmod := Nat.mod_lt ((carry ++ payload).length) hfb
  omega

theorem ingestCarryAll_len (channels : Nat) (hc : 1 ≤ channels) :
    ∀ (ps : List (List Nat)) (c p : List Nat),
      (ingestCarryAll channels c (p :: ps)).length < 3 * channels := by
  intro ps
  induction ps with
  | nil =>
    intro c p
    exact ingestCarryStep_len channels hc c p
  | cons q qs ih =>
    intro c p
    exact ih ((ingestCarryStep channels c p).2) q

/-- Claim C9: with `channels ≥ 1`, after the carry buffer is prepended to
any packet payload and the result trimmed to a multiple of
`frame_bytes = 3 × channels`, the saved remainder is strictly shorter than
`frame_bytes`; consequently the invariant `|carry| < frame_bytes` holds
after every packet of any inbound sequence is processed. -/
theorem ingest_carry_bound (channels : Nat) (hc : 1 ≤ channels)
    (carry payload : List Nat) :
    ((ingestCarryStep channels carry payload).2).length < 3 * channels ∧
    ∀ (payloads : List (List Nat)) (first : List Nat),
      (ingestCarryAll channels carry (first :: payloads)).length <
        3 * channels := by
  refine ⟨ingestCarryStep_len channels hc carry payload, ?_⟩
  intro payloads first
  exact ingestCarryAll_len channels hc payloads carry first

/-- Witness for C9: stereo frames (`channels = 2`), a 1-byte carry and a
7-byte payload leave a 2-byte carry, below `frame_bytes = 6`. -/
theorem ingest_carry_bound_w :
    ((ingestCarryStep 2 [9] [1, 2, 3, 4, 5, 6, 7]).2).length < 3 * 2 ∧
    (ingestCarryStep 2 [9] [1, 2, 3, 4, 5, 6, 7]).2 = [6, 7] :=
  ⟨(ingest_carry_bound 2 (by decide) [9] [1, 2, 3, 4, 5, 6, 7]).1, by decide⟩
